import Mathlib

/-!
Verification of the query-safety layer of a read-only MongoDB MCP server.

The development shallowly embeds the validation, limiting, schema-inference
and serialization code (`lib/mongodb/security.ts`, `tools/aggregate.ts`,
`tools/collectionSchema.ts`, `serializer.ts`) and proves the behavioural
properties stated in the specification.

JavaScript runtime values reaching these functions are modelled by the
`JSValue` type below; machine numbers appearing in the claims are modelled
as `Int`/`Nat` with explicit rounding where IEEE-754 conversion matters.
-/

/-- A JavaScript/BSON runtime value as discriminated by the source code
(`getBsonType` and the `typeof`/`instanceof`/`Array.isArray` tests).
`vNumInt` is a JS number with integral value (`Number.isInteger` true),
`vNumFrac` a JS number with non-integral value (its exact magnitude is
irrelevant to every property proved here), `vLong` a BSON 64-bit integer,
and `vBinary` an `ArrayBuffer` view (typed array) given by its bytes. -/
inductive JSValue : Type where
  | vNull : JSValue
  | vUndefined : JSValue
  | vObjectId (hexId : String) : JSValue
  | vDate (ms : Int) : JSValue
  | vRegExp (pat : String) : JSValue
  | vBinary (bytes : List Nat) : JSValue
  | vArr (items : List JSValue) : JSValue
  | vObj (fields : List (String × JSValue)) : JSValue
  | vNumInt (n : Int) : JSValue
  | vNumFrac : JSValue
  | vBool (b : Bool) : JSValue
  | vStr (s : String) : JSValue
  | vLong (n : Int) : JSValue

/-- Joint structural induction over `JSValue`, value lists and entry lists. -/
theorem JSValue.structuralInduction
    (P : JSValue → Prop) (Q : List JSValue → Prop)
    (R : List (String × JSValue) → Prop)
    (hNull : P .vNull) (hUndef : P .vUndefined)
    (hOid : ∀ s, P (.vObjectId s)) (hDate : ∀ ms, P (.vDate ms))
    (hRe : ∀ s, P (.vRegExp s)) (hBin : ∀ bs, P (.vBinary bs))
    (hArr : ∀ items, Q items → P (.vArr items))
    (hObj : ∀ fields, R fields → P (.vObj fields))
    (hInt : ∀ n, P (.vNumInt n)) (hFrac : P .vNumFrac)
    (hBool : ∀ b, P (.vBool b)) (hStr : ∀ s, P (.vStr s))
    (hLong : ∀ n, P (.vLong n))
    (hQnil : Q []) (hQcons : ∀ v l, P v → Q l → Q (v :: l))
    (hRnil : R []) (hRcons : ∀ k v l, P v → R l → R ((k, v) :: l)) :
    (∀ v, P v) ∧ (∀ l, Q l) ∧ (∀ l, R l) := by
  have hv : ∀ v, P v := fun v =>
    @JSValue.rec (fun v => P v) (fun l => Q l) (fun l => R l)
      (fun kv => P kv.2)
      hNull hUndef hOid hDate hRe hBin hArr hObj hInt hFrac hBool hStr hLong
      hQnil hQcons hRnil
      (fun head tail hh ht => hRcons head.1 head.2 tail hh ht)
      (fun _ _ hs => hs) v
  refine ⟨hv, fun l => ?_, fun l => ?_⟩
  · exact List.rec hQnil (fun head tail ih => hQcons head tail (hv head) ih) l
  · exact List.rec hRnil
      (fun head tail ih => hRcons head.1 head.2 tail (hv head.2) ih) l

/-! ## Small JavaScript semantic helpers -/

/-- The decimal digit character for `d < 10`. -/
def digitChar (d : Nat) : Char := Char.ofNat (48 + d)

/-- Decimal digit list of `n`; the `fuel` argument only forces structural
recursion and is always supplied large enough (`n + 1`). -/
def decDigitsAux : Nat → Nat → List Char
  | 0, _ => []
  | fuel + 1, n =>
    if n < 10 then [digitChar n]
    else decDigitsAux fuel (n / 10) ++ [digitChar (n % 10)]

/-- Decimal string of a natural number, as JavaScript prints array/typed
array indices and integers. -/
def decStr (n : Nat) : String := String.mk (decDigitsAux (n + 1) n)

/-- Decimal string of an integer. -/
def intDecStr (i : Int) : String :=
  if i < 0 then "-" ++ decStr (-i).toNat else decStr i.toNat

/-- JavaScript truthiness of a value (`NaN` is not modelled: a non-integral
number is taken to be nonzero, hence truthy). -/
def jsTruthy : JSValue → Bool
  | .vNull => false
  | .vUndefined => false
  | .vBool b => b
  | .vStr s => decide (s ≠ "")
  | .vNumInt n => decide (n ≠ 0)
  | .vNumFrac => true
  | .vLong n => decide (n ≠ 0)
  | _ => true

/-- First-match lookup in an association list: JavaScript property access
`o[k]` / `Map.get` on string keys (JS objects and Maps have unique keys). -/
def mapGet {α : Type} : List (String × α) → String → Option α
  | [], _ => none
  | (k', v) :: rest, k => if k' = k then some v else mapGet rest k

/-- JavaScript `prop in v`: property membership for object-typed operands,
a thrown `TypeError` for primitive operands.  Array, date, regexp, binary
and ObjectId operands are objects carrying no such property. -/
inductive JsError : Type where
  | error (msg : String)
  | typeError (prop : String) (operand : JSValue)

def jsHasProp (prop : String) : JSValue → Except JsError Bool
  | .vObj fields => .ok (decide (prop ∈ fields.map Prod.fst))
  | .vArr _ => .ok false
  | .vObjectId _ => .ok false
  | .vDate _ => .ok false
  | .vRegExp _ => .ok false
  | .vBinary _ => .ok false
  | v => .error (.typeError prop v)

/-! ## `lib/mongodb/security.ts` -/

structure SecurityLimits where
  maxTimeMS : Int
  maxLimit : Int
  defaultLimit : Int
  maxSampleSize : Int
  defaultSampleSize : Int

def SECURITY_LIMITS : SecurityLimits :=
  { maxTimeMS := 30000
    maxLimit := 100
    defaultLimit := 10
    maxSampleSize := 1000
    defaultSampleSize := 100 }

def PROHIBITED_FILTER_OPERATORS : List String :=
  ["$where", "$function", "$accumulator"]

def PROHIBITED_STAGES : List String :=
  ["$out", "$merge", "$function", "$accumulator"]

/-- `containsProhibitedOperator`, together with its two interior loops.
`null`/`undefined` and non-object values return `null`; arrays scan their
items; plain objects scan their entries, testing each key against the
denylist before recursing into the value.  `ObjectId`, `Date` and `RegExp`
instances have no enumerable own entries, so their entry loop never runs.
A typed array's enumerable own entries are its decimal indices paired with
its (numeric, hence never matching) byte values; `cpoIndexKeys` below is
that entry loop with the numeric-value recursion (which returns `null`)
already reduced.  The JS code resumes scanning when a recursive result is
the falsy string `""` (`if (found) return found`); this is kept verbatim. -/
def cpoIndexKeys (i : Nat) (bytes : List Nat) (prohibited : List String) :
    Option String :=
  match bytes with
  | [] => none
  | _ :: rest =>
    if decStr i ∈ prohibited then some (decStr i)
    else cpoIndexKeys (i + 1) rest prohibited

mutual

def containsProhibitedOperator (obj : JSValue) (prohibited : List String) :
    Option String :=
  match obj with
  | .vNull => none
  | .vUndefined => none
  | .vNumInt _ => none
  | .vNumFrac => none
  | .vBool _ => none
  | .vStr _ => none
  | .vLong _ => none
  | .vArr items => cpoItems items prohibited
  | .vObj fields => cpoEntries fields prohibited
  | .vObjectId _ => none
  | .vDate _ => none
  | .vRegExp _ => none
  | .vBinary bytes => cpoIndexKeys 0 bytes prohibited

def cpoItems (items : List JSValue) (prohibited : List String) :
    Option String :=
  match items with
  | [] => none
  | item :: rest =>
    match containsProhibitedOperator item prohibited with
    | some k => if k = "" then cpoItems rest prohibited else some k
    | none => cpoItems rest prohibited

def cpoEntries (entries : List (String × JSValue)) (prohibited : List String) :
    Option String :=
  match entries with
  | [] => none
  | (key, value) :: rest =>
    if key ∈ prohibited then some key
    else
      match containsProhibitedOperator value prohibited with
      | some k => if k = "" then cpoEntries rest prohibited else some k
      | none => cpoEntries rest prohibited

end

def prohibitedFilterMessage (p : String) : String :=
  "Prohibited operator \"" ++ p ++ "\" found in filter. " ++
    "The following operators are not allowed: " ++
    String.intercalate ", " PROHIBITED_FILTER_OPERATORS

/-- `validateFilter`: throws (modelled as `Except.error`) when the scan
finds a (truthy, i.e. nonempty) prohibited key. -/
def validateFilter (filter : List (String × JSValue)) : Except String Unit :=
  match containsProhibitedOperator (.vObj filter) PROHIBITED_FILTER_OPERATORS with
  | some p => if p = "" then .ok () else .error (prohibitedFilterMessage p)
  | none => .ok ()

def prohibitedStageMessage (k : String) : String :=
  "Prohibited stage \"" ++ k ++ "\" found in pipeline. " ++
    "The following stages are not allowed: " ++
    String.intercalate ", " PROHIBITED_STAGES

def lookupPipelineMessage : String :=
  "$lookup with pipeline is not allowed for security reasons. " ++
    "Use $lookup with localField/foreignField instead."

def pipelineOperatorMessage (p : String) : String :=
  "Prohibited operator \"" ++ p ++ "\" found in pipeline stage. " ++
    "Code execution operators are not allowed."

/-- The per-stage key loop of `validatePipeline`:
`for (const key of stageKeys) if (PROHIBITED_STAGES.includes(key)) throw`. -/
def checkStageKeys : List String → Except JsError Unit
  | [] => .ok ()
  | k :: rest =>
    if k ∈ PROHIBITED_STAGES then .error (.error (prohibitedStageMessage k))
    else checkStageKeys rest

/-- The `$lookup`-with-pipeline check of `validatePipeline`:
`if ("$lookup" in stage)` then `if (lookup && "pipeline" in lookup) throw`.
The `in` test throws a `TypeError` when `lookup` is a truthy primitive. -/
def checkLookup (stage : List (String × JSValue)) : Except JsError Unit :=
  match mapGet stage "$lookup" with
  | none => .ok ()
  | some lookup =>
    if jsTruthy lookup then
      match jsHasProp "pipeline" lookup with
      | .error e => .error e
      | .ok true => .error (.error lookupPipelineMessage)
      | .ok false => .ok ()
    else .ok ()

/-- The recursive stage-body scan of `validatePipeline`, denylist
`["$function", "$accumulator"]` (with the same string-truthiness test on
the result as in `validateFilter`). -/
def checkStageScan (stage : List (String × JSValue)) : Except JsError Unit :=
  match containsProhibitedOperator (.vObj stage) ["$function", "$accumulator"] with
  | some p => if p = "" then .ok () else .error (.error (pipelineOperatorMessage p))
  | none => .ok ()

/-- One iteration of the `for (const stage of pipeline)` loop. -/
def validateStage (stage : List (String × JSValue)) : Except JsError Unit :=
  match checkStageKeys (stage.map Prod.fst) with
  | .error e => .error e
  | .ok _ =>
    match checkLookup stage with
    | .error e => .error e
    | .ok _ => checkStageScan stage

def validatePipeline : List (List (String × JSValue)) → Except JsError Unit
  | [] => .ok ()
  | stage :: rest =>
    match validateStage stage with
    | .error e => .error e
    | .ok _ => validatePipeline rest

/-- `applyLimit` (the requested limit is `none` when absent (`undefined`)
or `null`; call sites pass integers, enforced by the argument schema). -/
def applyLimit (requestedLimit : Option Int) : Int :=
  match requestedLimit with
  | none => SECURITY_LIMITS.defaultLimit
  | some r =>
    if r ≤ 0 then SECURITY_LIMITS.defaultLimit
    else min r SECURITY_LIMITS.maxLimit

/-- `applySampleSize`. -/
def applySampleSize (requestedSize : Option Int) : Int :=
  match requestedSize with
  | none => SECURITY_LIMITS.defaultSampleSize
  | some r =>
    if r ≤ 0 then SECURITY_LIMITS.defaultSampleSize
    else min r SECURITY_LIMITS.maxSampleSize

/-! ## `tools/aggregate.ts` -/

/-- `hasLimitStage`: `pipeline.some((stage) => "$limit" in stage)`. -/
def hasLimitStage (pipeline : List (List (String × JSValue))) : Bool :=
  pipeline.any (fun stage => decide ("$limit" ∈ stage.map Prod.fst))

/-- The `effectivePipeline` sent to the database client by `aggregateTool`
(after `validatePipeline` has succeeded): the caller's pipeline, with
`{ $limit: applyLimit(SECURITY_LIMITS.maxLimit) }` pushed at the end when
no stage carries a `$limit` key. -/
def aggregateEffectivePipeline (pipeline : List (List (String × JSValue))) :
    List (List (String × JSValue)) :=
  if hasLimitStage pipeline then pipeline
  else pipeline ++ [[("$limit", .vNumInt (applyLimit (some SECURITY_LIMITS.maxLimit)))]]

/-! ## `tools/collectionSchema.ts` -/

/-- `getBsonType`: the BSON type label of a value. -/
def getBsonType : JSValue → String
  | .vNull => "null"
  | .vUndefined => "undefined"
  | .vObjectId _ => "ObjectId"
  | .vDate _ => "Date"
  | .vRegExp _ => "RegExp"
  | .vBinary _ => "Binary"
  | .vArr _ => "Array"
  | .vObj _ => "Object"
  | .vNumInt _ => "Int"
  | .vNumFrac => "Double"
  | .vBool _ => "Boolean"
  | .vStr _ => "String"
  | .vLong _ => "Long"

/-- JavaScript `Map.set`: update an existing key in place (keeping its
original position) or append a new binding at the end. -/
def mapSet {α : Type} : List (String × α) → String → α → List (String × α)
  | [], k, v => [(k, v)]
  | (k', v') :: rest, k, v =>
    if k' = k then (k', v) :: rest else (k', v') :: mapSet rest k v

/-- The dotted field path built by `extractFields`:
`prefix ? `${prefix}.${key}` : key` (string truthiness). -/
def joinPath (pref key : String) : String :=
  if pref ≠ "" then pref ++ "." ++ key else key

/-- The nested fields contributed by descending into a typed-array value at
`path`: `Object.entries` of a typed array enumerates its decimal indices
paired with its byte values, each classified `"Int"` and (being numbers)
descended into no further. -/
def binFields (path : String) : Nat → List Nat → List (String × String)
  | _, [] => []
  | i, _ :: rest =>
    (path ++ "." ++ decStr i, "Int") :: binFields path (i + 1) rest

mutual

/-- The entry loop of `extractFields`, with the `fields` map (`acc`) it
builds.  Each entry records its path and type, then the nested fields of
its value (if any) are merged with `fields.set`. -/
def extractWork : (doc : List (String × JSValue)) → (pref : String) →
    (acc : List (String × String)) → List (String × String)
  | [], _, acc => acc
  | (key, value) :: rest, pref, acc =>
    let fieldPath := joinPath pref key
    let acc1 := mapSet acc fieldPath (getBsonType value)
    let acc2 := (extractNested value fieldPath).foldl
      (fun a nt => mapSet a nt.1 nt.2) acc1
    extractWork rest pref acc2

/-- The nested fields of one value: the source descends (recursive
`extractFields` call on a fresh map) exactly when the value is non-null,
`typeof "object"`, not an array, and not an `ObjectId`/`Date`/`RegExp`
instance — that is, a plain object or an `ArrayBuffer` view (whose
enumerable entries are its byte indices, see `binFields`).  Every other
value contributes no nested fields. -/
def extractNested : JSValue → String → List (String × String)
  | .vObj fs, fieldPath => extractWork fs fieldPath []
  | .vBinary bs, fieldPath => binFields fieldPath 0 bs
  | _, _ => []

end

/-- `extractFields(doc, prefix)`: field paths and their types, as a
JS `Map` (insertion-ordered, unique keys). -/
def extractFields (doc : List (String × JSValue)) (pref : String) :
    List (String × String) :=
  extractWork doc pref []

structure FieldSchema where
  types : List String
  percentage : Nat
deriving DecidableEq, Repr

/-- `typeCounts.set(type, (typeCounts.get(type) || 0) + 1)`. -/
def bumpType : List (String × Nat) → String → List (String × Nat)
  | [], ty => [(ty, 1)]
  | (t, c) :: rest, ty =>
    if t = ty then (t, c + 1) :: rest else (t, c) :: bumpType rest ty

/-- The per-field update of `fieldStats` in `inferSchema` (create the inner
map when absent, then bump the type's count). -/
def addField : List (String × List (String × Nat)) → String → String →
    List (String × List (String × Nat))
  | [], path, ty => [(path, [(ty, 1)])]
  | (p, tc) :: rest, path, ty =>
    if p = path then (p, bumpType tc ty) :: rest
    else (p, tc) :: addField rest path ty

/-- One iteration of `for (const doc of documents)` in `inferSchema`. -/
def collectDoc (stats : List (String × List (String × Nat)))
    (doc : List (String × JSValue)) : List (String × List (String × Nat)) :=
  (extractFields doc "").foldl (fun s pt => addField s pt.1 pt.2) stats

/-- The `fieldStats` map after scanning every sampled document. -/
def docsFieldStats (documents : List (List (String × JSValue))) :
    List (String × List (String × Nat)) :=
  documents.foldl collectDoc []

/-- JavaScript's default string comparison: lexicographic on code units
(the type labels involved are ASCII, where code units and code points
coincide). -/
def charListLt : List Char → List Char → Bool
  | [], [] => false
  | [], _ :: _ => true
  | _ :: _, [] => false
  | c :: cs, d :: ds =>
    if c.toNat < d.toNat then true
    else if d.toNat < c.toNat then false
    else charListLt cs ds

/-- Insertion step of JavaScript `Array.prototype.sort()` on strings:
insert `s` before the first element not below it. -/
def insertSorted (s : String) : List String → List String
  | [] => [s]
  | t :: rest =>
    if charListLt t.data s.data then t :: insertSorted s rest
    else s :: t :: rest

def jsSortStrings (l : List String) : List String :=
  l.foldr insertSorted []

/-- Sum of the per-type counts of one field (`totalOccurrences`). -/
def tcSum (tc : List (String × Nat)) : Nat := (tc.map Prod.snd).sum

/-- `Math.round((occ / total) * 100)` modelled exactly: half-up rounding of
the rational `100 * occ / total` (`⌊x + 1/2⌋ = ⌊(200·occ + total) / (2·total)⌋`). -/
def jsRoundPct (occ total : Nat) : Nat := (200 * occ + total) / (2 * total)

/-- `inferSchema`: empty input yields the empty schema; otherwise each
field path maps to its sorted type labels and presence percentage. -/
def inferSchema (documents : List (List (String × JSValue))) :
    List (String × FieldSchema) :=
  match documents with
  | [] => []
  | _ =>
    (docsFieldStats documents).map fun ptc =>
      (ptc.1,
       { types := jsSortStrings (ptc.2.map Prod.fst)
         percentage := jsRoundPct (tcSum ptc.2) documents.length })

/-! ## `lib/mongodb/serializer.ts`

`serialize(docs)` is `EJSON.stringify(docs, { relaxed: true }, 2)`.
Modelled from the spec: the `EJSON` serializer itself lives in the external
`bson` package; its relaxed output format is fixed by the MongoDB Extended
JSON (v2) specification, which the model below follows.  In relaxed mode a
64-bit integer is emitted as a plain JSON number — the value is first
converted to an IEEE-754 double (`Long.toNumber()`).  The emitted text is
an injective rendering of the `EJson` tree below, so two documents with
equal trees serialize to identical text. -/

/-- A JSON tree in the image of relaxed extended-JSON conversion.  `jNum v`
is a JSON number whose (double) value is exactly the integer `v`; `jNumFrac`
is a JSON number with non-integral value (never produced from a 64-bit
integer, whose nearest double is always integral). -/
inductive EJson : Type where
  | jNull : EJson
  | jBool (b : Bool) : EJson
  | jNum (v : Int) : EJson
  | jNumFrac : EJson
  | jStr (s : String) : EJson
  | jArr (items : List EJson) : EJson
  | jObj (fields : List (String × EJson)) : EJson

/-- Floor of `log₂ n` for `n < 2 ^ fuel` (structural fuel recursion). -/
def binLog : Nat → Nat → Nat
  | 0, _ => 0
  | fuel + 1, n => if n < 2 then 0 else binLog fuel (n / 2) + 1

/-- Round `a` to the nearest multiple of `2 ^ e`, ties to the even
multiple (IEEE-754 round-to-nearest-even). -/
def roundHalfEvenPow (a e : Nat) : Nat :=
  let q := a / 2 ^ e
  let r := a % 2 ^ e
  let half := 2 ^ (e - 1)
  if r < half then q * 2 ^ e
  else if half < r then (q + 1) * 2 ^ e
  else (if q % 2 = 0 then q else q + 1) * 2 ^ e

/-- The value of the IEEE-754 double nearest to the natural number `a`
(for `a` in 64-bit-integer range): exact up to `2 ^ 53`, beyond that the
53-bit significand forces rounding to a multiple of `2 ^ (⌊log₂ a⌋ - 52)`. -/
def natToDouble (a : Nat) : Nat :=
  if a ≤ 2 ^ 53 then a
  else roundHalfEvenPow a (binLog 64 a - 52)

/-- `Long.toNumber()`: the double nearest to the 64-bit integer `n`. -/
def int64ToDouble (n : Int) : Int :=
  if 0 ≤ n then (natToDouble n.toNat : Int)
  else -(natToDouble (-n).toNat : Int)

/-- Stand-in (injective) rendering of the ISO-8601 timestamp used by
relaxed mode for in-range dates; its exact text is irrelevant here. -/
def isoDateStr (ms : Int) : String := "1970-epoch-ms:" ++ intDecStr ms

/-- Stand-in (injective) rendering of the base64 payload of binary data;
its exact text is irrelevant here. -/
def base64Str (bytes : List Nat) : String :=
  String.intercalate "," (bytes.map decStr)

mutual

/-- Relaxed extended-JSON conversion of a value (MongoDB Extended JSON v2,
relaxed mode, as produced by `EJSON.stringify(·, { relaxed: true }, 2)`). -/
def ejsonRelaxed : JSValue → EJson
  | .vNull => .jNull
  | .vUndefined => .jObj [("$undefined", .jBool true)]
  | .vObjectId hexId => .jObj [("$oid", .jStr hexId)]
  | .vDate ms => .jObj [("$date", .jStr (isoDateStr ms))]
  | .vRegExp pat =>
    .jObj [("$regularExpression",
            .jObj [("pattern", .jStr pat), ("options", .jStr "")])]
  | .vBinary bytes =>
    .jObj [("$binary",
            .jObj [("base64", .jStr (base64Str bytes)),
                   ("subType", .jStr "00")])]
  | .vArr items => .jArr (ejsonRelaxedItems items)
  | .vObj fields => .jObj (ejsonRelaxedEntries fields)
  | .vNumInt n => .jNum n
  | .vNumFrac => .jNumFrac
  | .vBool b => .jBool b
  | .vStr s => .jStr s
  | .vLong n => .jNum (int64ToDouble n)

def ejsonRelaxedItems : List JSValue → List EJson
  | [] => []
  | v :: rest => ejsonRelaxed v :: ejsonRelaxedItems rest

def ejsonRelaxedEntries : List (String × JSValue) → List (String × EJson)
  | [] => []
  | (k, v) :: rest => (k, ejsonRelaxed v) :: ejsonRelaxedEntries rest

end

/-- The JSON tree whose 2-space-indented rendering `serialize` returns for
a single document. -/
def serializeTree (doc : List (String × JSValue)) : EJson :=
  ejsonRelaxed (.vObj doc)

/-! ## Specification-side predicates -/

mutual

/-- The specification's notion "the filter contains key `k` as a mapping
key at some nesting depth", descending through mapping values and sequence
elements. -/
def hasKeyDeep (k : String) : JSValue → Bool
  | .vObj fields => hkdEntries k fields
  | .vArr items => hkdItems k items
  | _ => false

def hkdItems (k : String) : List JSValue → Bool
  | [] => false
  | v :: rest => hasKeyDeep k v || hkdItems k rest

def hkdEntries (k : String) : List (String × JSValue) → Bool
  | [] => false
  | (key, v) :: rest => decide (key = k) || hasKeyDeep k v || hkdEntries k rest

end

/-- Specification-side description of the field paths the extraction walk
may produce: a path either names an entry of the document, or continues
through a plain nested mapping, or continues into the interior of a binary
(typed-array) value — and through nothing else. -/
inductive FieldOf : String → List (String × JSValue) → String → String → Prop
  | here (pref : String) (doc : List (String × JSValue)) (key : String)
      (v : JSValue) : (key, v) ∈ doc →
      FieldOf pref doc (joinPath pref key) (getBsonType v)
  | nested (pref : String) (doc : List (String × JSValue)) (key : String)
      (fs : List (String × JSValue)) (p t : String) :
      (key, .vObj fs) ∈ doc → FieldOf (joinPath pref key) fs p t →
      FieldOf pref doc p t
  | binary (pref : String) (doc : List (String × JSValue)) (key : String)
      (bs : List Nat) (i : Nat) : (key, .vBinary bs) ∈ doc → i < bs.length →
      FieldOf pref doc (joinPath pref key ++ "." ++ decStr i) "Int"

/-! ## Generic helpers -/

/-- An `Except _ Unit` computation either succeeds or fails. -/
theorem except_ok_or_error {ε : Type} (x : Except ε Unit) :
    x = .ok () ∨ ∃ e, x = .error e := by
  cases x with
  | ok u => cases u; exact Or.inl rfl
  | error e => exact Or.inr ⟨e, rfl⟩

/-! ## C4, C5, C10: limits, aggregate bounding stage, `$lookup` totality -/

/-- C4: `applyLimit` returns the requested limit when it lies in `[1, 100]`,
caps it at `100` above, and falls back to the default `10` when it is
absent or nonpositive; `applySampleSize` does the same with bounds `1000`
and default `100`.  Both are total functions — no input is rejected. -/
theorem applyLimit_applySampleSize_spec :
    applyLimit none = 10 ∧
    (∀ r : Int, 1 ≤ r → r ≤ 100 → applyLimit (some r) = r) ∧
    (∀ r : Int, 100 < r → applyLimit (some r) = 100) ∧
    (∀ r : Int, r ≤ 0 → applyLimit (some r) = 10) ∧
    applySampleSize none = 100 ∧
    (∀ r : Int, 1 ≤ r → r ≤ 1000 → applySampleSize (some r) = r) ∧
    (∀ r : Int, 1000 < r → applySampleSize (some r) = 1000) ∧
    (∀ r : Int, r ≤ 0 → applySampleSize (some r) = 100) := by
  refine ⟨rfl, ?_, ?_, ?_, rfl, ?_, ?_, ?_⟩ <;>
    intro r h1 <;>
    first
      | (intro h2
         simp only [applyLimit, applySampleSize, SECURITY_LIMITS]
         rw [if_neg (by omega)]
         omega)
      | (simp only [applyLimit, applySampleSize, SECURITY_LIMITS]
         first
           | (rw [if_neg (by omega)]; omega)
           | (rw [if_pos (by omega)]))

theorem applyLimit_applySampleSize_spec_witness :
    applyLimit (some 50) = 50 ∧ applyLimit (some 250) = 100 ∧
    applyLimit (some (-3)) = 10 ∧ applySampleSize (some 500) = 500 ∧
    applySampleSize (some 2000) = 1000 ∧ applySampleSize (some 0) = 100 :=
  ⟨applyLimit_applySampleSize_spec.2.1 50 (by norm_num) (by norm_num),
   applyLimit_applySampleSize_spec.2.2.1 250 (by norm_num),
   applyLimit_applySampleSize_spec.2.2.2.1 (-3) (by norm_num),
   applyLimit_applySampleSize_spec.2.2.2.2.2.1 500 (by norm_num) (by norm_num),
   applyLimit_applySampleSize_spec.2.2.2.2.2.2.1 2000 (by norm_num),
   applyLimit_applySampleSize_spec.2.2.2.2.2.2.2 0 (by norm_num)⟩

/-- C5: for a pipeline that passed validation, the pipeline sent to the
database client is the caller's pipeline with a single `{ $limit: 100 }`
stage appended exactly when no stage of the caller's pipeline carries a
`$limit` key; otherwise it is the caller's pipeline unchanged. -/
theorem aggregate_appends_limit (p : List (List (String × JSValue)))
    (hvalid : validatePipeline p = .ok ()) :
    (hasLimitStage p = false →
      aggregateEffectivePipeline p = p ++ [[("$limit", .vNumInt 100)]]) ∧
    (hasLimitStage p = true → aggregateEffectivePipeline p = p) := by
  constructor <;> intro h <;>
    simp [aggregateEffectivePipeline, h, applyLimit, SECURITY_LIMITS]

theorem aggregate_appends_limit_witness :
    validatePipeline [[("$match", JSValue.vObj [])]] = .ok () ∧
    aggregateEffectivePipeline [[("$match", JSValue.vObj [])]] =
      [[("$match", JSValue.vObj [])], [("$limit", JSValue.vNumInt 100)]] :=
  ⟨rfl, (aggregate_appends_limit [[("$match", JSValue.vObj [])]] rfl).1 rfl⟩

/-- C10: `validatePipeline` is not total over arbitrary stage shapes: on a
stage whose `$lookup` key maps to the truthy non-object value `"x"`, the
`"pipeline" in lookup` membership test throws a `TypeError` rather than
succeeding or raising a policy-violation `Error`. -/
theorem validatePipeline_lookup_typeError :
    validatePipeline [[("$lookup", JSValue.vStr "x")]] =
      .error (.typeError "pipeline" (JSValue.vStr "x")) := rfl

/-! ## C9: relaxed serialization of 64-bit integers -/

/-- C9 counterexample: relaxed serialization collapses the 64-bit integers
`2^53 + 1` and `2^53` to the same JSON tree (hence the same emitted text),
a plain JSON number of value `2^53` — so deserializing the text cannot
recover the original numeric value, and the encoding is exactly a standard
floating-point JSON number. -/
theorem serializeTree_long_collision :
    serializeTree [("a", JSValue.vLong 9007199254740993)] =
      serializeTree [("a", JSValue.vLong 9007199254740992)] ∧
    serializeTree [("a", JSValue.vLong 9007199254740993)] =
      .jObj [("a", .jNum 9007199254740992)] ∧
    (9007199254740993 : Int) ≠ 9007199254740992 :=
  ⟨rfl, rfl, by decide⟩

/-- C9 amended: a 64-bit integer survives relaxed serialization with its
exact numeric value when its magnitude is at most `2^53` (it is emitted as
a plain JSON number, indistinguishable from a double); beyond `2^53`
precision can be lost, as the counterexample shows. -/
theorem serializeTree_long_exact (key : String) (v : Int)
    (h1 : -(2 ^ 53) ≤ v) (h2 : v ≤ 2 ^ 53) :
    serializeTree [(key, JSValue.vLong v)] = .jObj [(key, .jNum v)] := by
  have hpow : (2 : Nat) ^ 53 = 9007199254740992 := by norm_num
  have hpz : (2 : Int) ^ 53 = 9007199254740992 := by norm_num
  rw [hpz] at h1 h2
  have hd : int64ToDouble v = v := by
    unfold int64ToDouble natToDouble
    rcases le_or_lt 0 v with hv | hv
    · rw [if_pos hv, if_pos (by omega)]
      omega
    · rw [if_neg (by omega), if_pos (by omega)]
      omega
  show EJson.jObj [(key, .jNum (int64ToDouble v))] = _
  rw [hd]

theorem serializeTree_long_exact_witness :
    serializeTree [("a", JSValue.vLong 42)] = .jObj [("a", .jNum 42)] :=
  serializeTree_long_exact "a" 42 (by norm_num) (by norm_num)

/-! ## C8 counterexample: the walk does descend into binary payloads -/

/-- C8 counterexample: on a document whose field `a` holds a binary value
(an `ArrayBuffer` view of one byte), extraction classifies `a` as
`Binary` and still descends into it, producing the dotted path `a.0`
through the interior of the binary payload. -/
theorem extractFields_binary_descent :
    extractFields [("a", JSValue.vBinary [7])] "" =
      [("a", "Binary"), ("a.0", "Int")] ∧
    getBsonType (JSValue.vBinary [7]) = "Binary" :=
  ⟨rfl, rfl⟩

/-! ## Characterization of the recursive denylist scan -/

theorem digitChar_toNat (d : Nat) (hd : d < 10) :
    (digitChar d).toNat = 48 + d := by
  interval_cases d <;> decide

theorem decDigitsAux_digits (fuel : Nat) :
    ∀ n c, c ∈ decDigitsAux fuel n → 48 ≤ c.toNat ∧ c.toNat ≤ 57 := by
  induction fuel with
  | zero => intro n c hc; simp [decDigitsAux] at hc
  | succ fuel ih =>
    intro n c hc
    rw [decDigitsAux] at hc
    split at hc
    · rename_i hn
      simp only [List.mem_singleton] at hc
      subst hc
      rw [digitChar_toNat n hn]
      omega
    · rcases List.mem_append.mp hc with h | h
      · exact ih _ _ h
      · simp only [List.mem_singleton] at h
        subst h
        rw [digitChar_toNat _ (Nat.mod_lt _ (by norm_num))]
        omega

theorem decStr_all_digits (n : Nat) :
    ∀ c ∈ (decStr n).data, 48 ≤ c.toNat ∧ c.toNat ≤ 57 :=
  fun c hc => decDigitsAux_digits (n + 1) n c hc

/-- A decimal index string never equals a string containing `'$'`. -/
theorem decStr_ne_dollarWord (n : Nat) (s : String) (hs : '$' ∈ s.data) :
    decStr n ≠ s := by
  intro h
  have hd := decStr_all_digits n '$' (by rw [h]; exact hs)
  have : ('$').toNat = 36 := rfl
  omega

theorem decStr_not_in_filter_ops (i : Nat) :
    decStr i ∉ PROHIBITED_FILTER_OPERATORS := by
  intro h
  simp only [PROHIBITED_FILTER_OPERATORS, List.mem_cons,
    List.mem_singleton, List.not_mem_nil, or_false] at h
  rcases h with h | h | h <;> exact decStr_ne_dollarWord i _ (by decide) h

theorem decStr_not_in_scan_ops (i : Nat) :
    decStr i ∉ ["$function", "$accumulator"] := by
  intro h
  simp only [List.mem_cons, List.mem_singleton, List.not_mem_nil,
    or_false] at h
  rcases h with h | h <;> exact decStr_ne_dollarWord i _ (by decide) h

theorem cpoIndexKeys_eq_none (prohibited : List String)
    (hdig : ∀ i : Nat, decStr i ∉ prohibited) :
    ∀ bytes i, cpoIndexKeys i bytes prohibited = none := by
  intro bytes
  induction bytes with
  | nil => intro i; rfl
  | cons b rest ih =>
    intro i
    rw [cpoIndexKeys, if_neg (hdig i)]
    exact ih (i + 1)

/-- The scan agrees with the specification predicate `hasKeyDeep`: it
returns some key iff that key is in the denylist and occurs as a mapping
key at some depth, and returns `none` iff no denylisted key occurs at any
depth.  (The denylists used never contain the empty string or a decimal
index string.) -/
theorem cpo_characterization (prohibited : List String)
    (hempty : "" ∉ prohibited) (hdig : ∀ i : Nat, decStr i ∉ prohibited) :
    ∀ obj,
      (∀ k, containsProhibitedOperator obj prohibited = some k →
        k ∈ prohibited ∧ hasKeyDeep k obj = true) ∧
      (containsProhibitedOperator obj prohibited = none →
        ∀ k ∈ prohibited, hasKeyDeep k obj = false) := by
  have main :=
    JSValue.structuralInduction
      (fun obj =>
        (∀ k, containsProhibitedOperator obj prohibited = some k →
          k ∈ prohibited ∧ hasKeyDeep k obj = true) ∧
        (containsProhibitedOperator obj prohibited = none →
          ∀ k ∈ prohibited, hasKeyDeep k obj = false))
      (fun items =>
        (∀ k, cpoItems items prohibited = some k →
          k ∈ prohibited ∧ hkdItems k items = true) ∧
        (cpoItems items prohibited = none →
          ∀ k ∈ prohibited, hkdItems k items = false))
      (fun entries =>
        (∀ k, cpoEntries entries prohibited = some k →
          k ∈ prohibited ∧ hkdEntries k entries = true) ∧
        (cpoEntries entries prohibited = none →
          ∀ k ∈ prohibited, hkdEntries k entries = false))
      -- scalar values: the scan returns none, the predicate is false
      (by simp [containsProhibitedOperator, hasKeyDeep])
      (by simp [containsProhibitedOperator, hasKeyDeep])
      (fun s => by simp [containsProhibitedOperator, hasKeyDeep])
      (fun ms => by simp [containsProhibitedOperator, hasKeyDeep])
      (fun s => by simp [containsProhibitedOperator, hasKeyDeep])
      -- binary: the index-key loop never matches
      (fun bs => by
        simp [containsProhibitedOperator, hasKeyDeep,
          cpoIndexKeys_eq_none prohibited hdig bs 0])
      -- arrays and objects defer to their loops
      (fun items ih => by
        simpa [containsProhibitedOperator, hasKeyDeep] using ih)
      (fun fields ih => by
        simpa [containsProhibitedOperator, hasKeyDeep] using ih)
      (fun n => by simp [containsProhibitedOperator, hasKeyDeep])
      (by simp [containsProhibitedOperator, hasKeyDeep])
      (fun b => by simp [containsProhibitedOperator, hasKeyDeep])
      (fun s => by simp [containsProhibitedOperator, hasKeyDeep])
      (fun n => by simp [containsProhibitedOperator, hasKeyDeep])
      -- item loop, nil
      (by simp [cpoItems, hkdItems])
      -- item loop, cons
      (fun v l ihv ihl => by
        constructor
        · intro k hk
          rw [cpoItems] at hk
          rcases hcv : containsProhibitedOperator v prohibited with _ | k'
          · rw [hcv] at hk
            obtain ⟨hmem, hdeep⟩ := ihl.1 k hk
            exact ⟨hmem, by simp [hkdItems, hdeep]⟩
          · rw [hcv] at hk
            have hk' := ihv.1 k' hcv
            have hne : ¬ k' = "" := fun he => hempty (he ▸ hk'.1)
            have hk2 : (if k' = "" then cpoItems l prohibited else some k') =
              some k := hk
            rw [if_neg hne] at hk2
            cases hk2
            exact ⟨hk'.1, by simp [hkdItems, hk'.2]⟩
        · intro hn k hkmem
          rw [cpoItems] at hn
          rcases hcv : containsProhibitedOperator v prohibited with _ | k'
          · rw [hcv] at hn
            simp [hkdItems, ihv.2 hcv k hkmem, ihl.2 hn k hkmem]
          · rw [hcv] at hn
            have hk' := ihv.1 k' hcv
            have hne : ¬ k' = "" := fun he => hempty (he ▸ hk'.1)
            have hn2 : (if k' = "" then cpoItems l prohibited else some k') =
              none := hn
            rw [if_neg hne] at hn2
            cases hn2)
      -- entry loop, nil
      (by simp [cpoEntries, hkdEntries])
      -- entry loop, cons
      (fun key v l ihv ihl => by
        constructor
        · intro k hk
          rw [cpoEntries] at hk
          by_cases hkey : key ∈ prohibited
          · rw [if_pos hkey] at hk
            cases hk
            exact ⟨hkey, by simp [hkdEntries]⟩
          · rw [if_neg hkey] at hk
            rcases hcv : containsProhibitedOperator v prohibited with _ | k'
            · rw [hcv] at hk
              obtain ⟨hmem, hdeep⟩ := ihl.1 k hk
              exact ⟨hmem, by simp [hkdEntries, hdeep]⟩
            · rw [hcv] at hk
              have hk' := ihv.1 k' hcv
              have hne : ¬ k' = "" := fun he => hempty (he ▸ hk'.1)
              have hk2 : (if k' = "" then cpoEntries l prohibited
                  else some k') = some k := hk
              rw [if_neg hne] at hk2
              cases hk2
              exact ⟨hk'.1, by simp [hkdEntries, hk'.2]⟩
        · intro hn k hkmem
          rw [cpoEntries] at hn
          by_cases hkey : key ∈ prohibited
          · rw [if_pos hkey] at hn
            cases hn
          · rw [if_neg hkey] at hn
            rcases hcv : containsProhibitedOperator v prohibited with _ | k'
            · rw [hcv] at hn
              have hne : ¬ key = k := fun he => hkey (he ▸ hkmem)
              simp [hkdEntries, hne, ihv.2 hcv k hkmem, ihl.2 hn k hkmem]
            · rw [hcv] at hn
              have hk' := ihv.1 k' hcv
              have hne : ¬ k' = "" := fun he => hempty (he ▸ hk'.1)
              have hn2 : (if k' = "" then cpoEntries l prohibited
                  else some k') = none := hn
              rw [if_neg hne] at hn2
              cases hn2)
  exact main.1

/-! ## C1: filter validation -/

/-- C1: `validateFilter` fails — with an error message naming the offending
key — exactly on the filters that contain one of the three scripting
operator keys (`$where`, `$function`, `$accumulator`) as a mapping key at
some nesting depth (including inside logical combinators and sequence
elements), and succeeds on every filter containing none of them. -/
theorem validateFilter_spec (filter : List (String × JSValue)) :
    ((∃ k ∈ PROHIBITED_FILTER_OPERATORS, hasKeyDeep k (.vObj filter) = true) →
      ∃ k ∈ PROHIBITED_FILTER_OPERATORS, hasKeyDeep k (.vObj filter) = true ∧
        validateFilter filter = .error (prohibitedFilterMessage k)) ∧
    ((∀ k ∈ PROHIBITED_FILTER_OPERATORS, hasKeyDeep k (.vObj filter) = false) →
      validateFilter filter = .ok ()) := by
  have hc := cpo_characterization PROHIBITED_FILTER_OPERATORS
    (by decide) decStr_not_in_filter_ops (.vObj filter)
  constructor
  · rintro ⟨k, hkmem, hdeep⟩
    rcases hcpo : containsProhibitedOperator (.vObj filter)
        PROHIBITED_FILTER_OPERATORS with _ | k'
    · have := hc.2 hcpo k hkmem
      rw [hdeep] at this
      cases this
    · obtain ⟨hmem', hdeep'⟩ := hc.1 k' hcpo
      have hne : ¬ k' = "" := by
        rintro rfl
        revert hmem'
        decide
      refine ⟨k', hmem', hdeep', ?_⟩
      simp [validateFilter, hcpo, hne]
  · intro hall
    rcases hcpo : containsProhibitedOperator (.vObj filter)
        PROHIBITED_FILTER_OPERATORS with _ | k'
    · rw [validateFilter, hcpo]
    · obtain ⟨hmem', hdeep'⟩ := hc.1 k' hcpo
      have := hall k' hmem'
      rw [hdeep'] at this
      cases this

theorem validateFilter_spec_witness :
    (∃ k ∈ PROHIBITED_FILTER_OPERATORS,
      hasKeyDeep k
        (.vObj [("$and",
          .vArr [.vObj [("$where", .vStr "this.x > 1")]])]) = true) ∧
    (∃ k ∈ PROHIBITED_FILTER_OPERATORS,
      hasKeyDeep k
        (.vObj [("$and",
          .vArr [.vObj [("$where", .vStr "this.x > 1")]])]) = true ∧
      validateFilter [("$and", .vArr [.vObj [("$where", .vStr "this.x > 1")]])] =
        .error (prohibitedFilterMessage k)) :=
  ⟨by decide,
   (validateFilter_spec
     [("$and", .vArr [.vObj [("$where", .vStr "this.x > 1")]])]).1 (by decide)⟩

/-! ## Pipeline validation plumbing -/

theorem validatePipeline_ok_iff (p : List (List (String × JSValue))) :
    validatePipeline p = .ok () ↔ ∀ s ∈ p, validateStage s = .ok () := by
  induction p with
  | nil => simp [validatePipeline]
  | cons s rest ih =>
    rw [validatePipeline]
    rcases except_ok_or_error (validateStage s) with hs | ⟨e, hs⟩
    · rw [hs]
      simp only [List.mem_cons]
      constructor
      · intro h t ht
        rcases ht with rfl | ht
        · exact hs
        · exact ih.mp h t ht
      · intro h
        exact ih.mpr fun t ht => h t (Or.inr ht)
    · rw [hs]
      simp only [List.mem_cons]
      constructor
      · intro h
        cases h
      · intro h
        have := h s (Or.inl rfl)
        rw [hs] at this
        cases this

theorem checkStageKeys_ok_iff (keys : List String) :
    checkStageKeys keys = .ok () ↔ ∀ k ∈ keys, k ∉ PROHIBITED_STAGES := by
  induction keys with
  | nil => simp [checkStageKeys]
  | cons k rest ih =>
    rw [checkStageKeys]
    by_cases hk : k ∈ PROHIBITED_STAGES
    · rw [if_pos hk]
      simp only [List.mem_cons]
      constructor
      · intro h
        cases h
      · intro h
        exact absurd hk (h k (Or.inl rfl))
    · rw [if_neg hk]
      simp only [List.mem_cons]
      constructor
      · intro h t ht
        rcases ht with rfl | ht
        · exact hk
        · exact ih.mp h t ht
      · intro h
        exact ih.mpr fun t ht => h t (Or.inr ht)

theorem validateStage_ok_iff (s : List (String × JSValue)) :
    validateStage s = .ok () ↔
      checkStageKeys (s.map Prod.fst) = .ok () ∧ checkLookup s = .ok () ∧
        checkStageScan s = .ok () := by
  rw [validateStage]
  rcases except_ok_or_error (checkStageKeys (s.map Prod.fst)) with h1 | ⟨e, h1⟩ <;>
    rw [h1]
  · rcases except_ok_or_error (checkLookup s) with h2 | ⟨e, h2⟩ <;> rw [h2]
    · simp
    · simp [h2]
  · simp [h1]

/-- `checkStageScan` succeeds exactly when the body scan finds nothing
(the denylist contains no empty string, so the falsy-result branch is
impossible). -/
theorem checkStageScan_ok_iff (s : List (String × JSValue)) :
    checkStageScan s = .ok () ↔
      containsProhibitedOperator (.vObj s) ["$function", "$accumulator"] =
        none := by
  have hc := cpo_characterization ["$function", "$accumulator"]
    (by decide) decStr_not_in_scan_ops (.vObj s)
  rcases hcpo : containsProhibitedOperator (.vObj s)
      ["$function", "$accumulator"] with _ | k'
  · simp [checkStageScan, hcpo]
  · have hne : ¬ k' = "" := by
      rintro rfl
      have := (hc.1 "" hcpo).1
      revert this
      decide
    simp [checkStageScan, hcpo, hne]

/-! ## C2, C3: pipeline validation -/

/-- C2: (a) a pipeline with a prohibited stage name (`$out`, `$merge`,
`$function`, `$accumulator`) as a top-level key of some stage is rejected;
(b) a pipeline whose stages all pass the top-level key check, the
`$lookup` check, and the recursive code-execution scan is accepted — in
particular `$out`/`$merge` occurring only nested inside a stage's argument
values never cause rejection; (c) `$function` or `$accumulator` occurring
at any depth inside any stage causes rejection. -/
theorem validatePipeline_stage_policy (p : List (List (String × JSValue))) :
    ((∃ s ∈ p, ∃ k ∈ s.map Prod.fst, k ∈ PROHIBITED_STAGES) →
      ∃ e, validatePipeline p = .error e) ∧
    ((∀ s ∈ p, ∀ k ∈ s.map Prod.fst, k ∉ PROHIBITED_STAGES) →
      (∀ s ∈ p, checkLookup s = .ok ()) →
      (∀ s ∈ p, ∀ k ∈ (["$function", "$accumulator"] : List String),
        hasKeyDeep k (.vObj s) = false) →
      validatePipeline p = .ok ()) ∧
    ((∃ s ∈ p, ∃ k ∈ (["$function", "$accumulator"] : List String),
        hasKeyDeep k (.vObj s) = true) →
      ∃ e, validatePipeline p = .error e) := by
  refine ⟨?_, ?_, ?_⟩
  · rintro ⟨s, hs, k, hk, hkp⟩
    rcases except_ok_or_error (validatePipeline p) with hok | he
    · have := (checkStageKeys_ok_iff (s.map Prod.fst)).mp
        ((validateStage_ok_iff s).mp
          ((validatePipeline_ok_iff p).mp hok s hs)).1 k hk
      exact absurd hkp this
    · exact he
  · intro h1 h2 h3
    refine (validatePipeline_ok_iff p).mpr fun s hs => ?_
    refine (validateStage_ok_iff s).mpr
      ⟨(checkStageKeys_ok_iff (s.map Prod.fst)).mpr (h1 s hs), h2 s hs, ?_⟩
    refine (checkStageScan_ok_iff s).mpr ?_
    have hc := cpo_characterization ["$function", "$accumulator"]
      (by decide) decStr_not_in_scan_ops (.vObj s)
    rcases hcpo : containsProhibitedOperator (.vObj s)
        ["$function", "$accumulator"] with _ | k'
    · rfl
    · obtain ⟨hmem', hdeep'⟩ := hc.1 k' hcpo
      have := h3 s hs k' hmem'
      rw [hdeep'] at this
      cases this
  · rintro ⟨s, hs, k, hk, hdeep⟩
    rcases except_ok_or_error (validatePipeline p) with hok | he
    · have hscan := ((validateStage_ok_iff s).mp
        ((validatePipeline_ok_iff p).mp hok s hs)).2.2
      have hnone := (checkStageScan_ok_iff s).mp hscan
      have hc := cpo_characterization ["$function", "$accumulator"]
        (by decide) decStr_not_in_scan_ops (.vObj s)
      have := hc.2 hnone k hk
      rw [hdeep] at this
      cases this
    · exact he

theorem validatePipeline_stage_policy_witness :
    (∃ s ∈ [[("$out", JSValue.vStr "c")]],
      ∃ k ∈ s.map Prod.fst, k ∈ PROHIBITED_STAGES) ∧
    (∃ e, validatePipeline [[("$out", JSValue.vStr "c")]] = .error e) ∧
    hasKeyDeep "$out"
      (.vObj [("$match", .vObj [("x", .vObj [("$out", .vStr "c")])])]) =
        true ∧
    validatePipeline
      [[("$match", JSValue.vObj [("x", JSValue.vObj [("$out", JSValue.vStr "c")])])]] =
        .ok () ∧
    (∃ s ∈ [[("$group",
        JSValue.vObj [("t", JSValue.vObj [("$accumulator", JSValue.vNull)])])]],
      ∃ k ∈ (["$function", "$accumulator"] : List String),
        hasKeyDeep k (.vObj s) = true) ∧
    (∃ e, validatePipeline
      [[("$group",
          JSValue.vObj [("t", JSValue.vObj [("$accumulator", JSValue.vNull)])])]] =
        .error e) := by
  refine ⟨by decide,
    (validatePipeline_stage_policy [[("$out", JSValue.vStr "c")]]).1 (by decide),
    by decide,
    (validatePipeline_stage_policy
      [[("$match", JSValue.vObj [("x", JSValue.vObj [("$out", JSValue.vStr "c")])])]]).2.1
      (by decide) ?_ (by decide),
    by decide,
    (validatePipeline_stage_policy
      [[("$group",
          JSValue.vObj [("t", JSValue.vObj [("$accumulator", JSValue.vNull)])])]]).2.2
      (by decide)⟩
  intro s hs
  simp only [List.mem_singleton] at hs
  subst hs
  rfl

/-- C3: a pipeline containing a stage whose `$lookup` key maps to an
object that carries a `pipeline` key is always rejected, whatever the
content of the nested sub-pipeline. -/
theorem validatePipeline_lookup_subpipeline (p : List (List (String × JSValue)))
    (h : ∃ s ∈ p, ∃ fs, mapGet s "$lookup" = some (.vObj fs) ∧
      "pipeline" ∈ fs.map Prod.fst) :
    ∃ e, validatePipeline p = .error e := by
  rcases except_ok_or_error (validatePipeline p) with hok | he
  · obtain ⟨s, hs, fs, hget, hmem⟩ := h
    have hlk := ((validateStage_ok_iff s).mp
      ((validatePipeline_ok_iff p).mp hok s hs)).2.1
    rw [checkLookup, hget] at hlk
    simp [jsTruthy, jsHasProp, hmem] at hlk
  · exact he

theorem validatePipeline_lookup_subpipeline_witness :
    ∃ e, validatePipeline
      [[("$lookup", JSValue.vObj
          [("from", JSValue.vStr "c"), ("pipeline", JSValue.vArr [])])]] =
        .error e :=
  validatePipeline_lookup_subpipeline
    [[("$lookup", JSValue.vObj
        [("from", JSValue.vStr "c"), ("pipeline", JSValue.vArr [])])]]
    ⟨[("$lookup", JSValue.vObj
        [("from", JSValue.vStr "c"), ("pipeline", JSValue.vArr [])])],
     by simp, [("from", JSValue.vStr "c"), ("pipeline", JSValue.vArr [])],
     rfl, by decide⟩

/-! ## C8: which values the extraction walk descends into -/

theorem mem_mapSet {α : Type} (m : List (String × α)) (k : String) (v : α)
    (p : String) (t : α) (h : (p, t) ∈ mapSet m k v) :
    (p, t) ∈ m ∨ (p = k ∧ t = v) := by
  induction m with
  | nil =>
    simp only [mapSet, List.mem_singleton] at h
    cases h
    exact Or.inr ⟨rfl, rfl⟩
  | cons kv rest ih =>
    obtain ⟨k', v'⟩ := kv
    rw [mapSet] at h
    by_cases hk : k' = k
    · rw [if_pos hk] at h
      rcases List.mem_cons.mp h with h | h
      · cases h
        exact Or.inr ⟨hk, rfl⟩
      · exact Or.inl (List.mem_cons_of_mem _ h)
    · rw [if_neg hk] at h
      rcases List.mem_cons.mp h with h | h
      · exact Or.inl (h ▸ List.mem_cons_self _ _)
      · rcases ih h with h | h
        · exact Or.inl (List.mem_cons_of_mem _ h)
        · exact Or.inr h

theorem mem_foldl_mapSet {α : Type} (l : List (String × α))
    (acc : List (String × α)) (p : String) (t : α)
    (h : (p, t) ∈ l.foldl (fun a nt => mapSet a nt.1 nt.2) acc) :
    (p, t) ∈ acc ∨ (p, t) ∈ l := by
  induction l generalizing acc with
  | nil => exact Or.inl h
  | cons nt rest ih =>
    rw [List.foldl_cons] at h
    rcases ih _ h with h' | h'
    · rcases mem_mapSet _ _ _ _ _ h' with h'' | ⟨rfl, rfl⟩
      · exact Or.inl h''
      · exact Or.inr (List.mem_cons_self _ _)
    · exact Or.inr (List.mem_cons_of_mem _ h')

theorem binFields_mem (path : String) (bs : List Nat) (i : Nat)
    (p t : String) (h : (p, t) ∈ binFields path i bs) :
    ∃ j, j < bs.length ∧ p = path ++ "." ++ decStr (i + j) ∧ t = "Int" := by
  induction bs generalizing i with
  | nil => simp [binFields] at h
  | cons b rest ih =>
    rw [binFields] at h
    rcases List.mem_cons.mp h with h | h
    · cases h
      exact ⟨0, by simp, by simp, rfl⟩
    · obtain ⟨j, hj, hp, ht⟩ := ih (i + 1) h
      exact ⟨j + 1, by simpa using hj, by rw [hp]; ring_nf, ht⟩

theorem FieldOf_cons (pref : String) (e : String × JSValue)
    (doc : List (String × JSValue)) (p t : String)
    (h : FieldOf pref doc p t) : FieldOf pref (e :: doc) p t := by
  induction h with
  | here pref' doc' key v hmem =>
    exact FieldOf.here pref' _ key v (List.mem_cons_of_mem _ hmem)
  | nested pref' doc' key fs p' t' hmem _hsub ih =>
    exact FieldOf.nested pref' _ key fs p' t'
      (List.mem_cons_of_mem _ hmem) _hsub
  | binary pref' doc' key bs i hmem hi =>
    exact FieldOf.binary pref' _ key bs i (List.mem_cons_of_mem _ hmem) hi

theorem extractWork_fieldOf :
    ∀ (doc : List (String × JSValue)) (pref : String)
      (acc : List (String × String)) (p t : String),
      (p, t) ∈ extractWork doc pref acc →
        (p, t) ∈ acc ∨ FieldOf pref doc p t := by
  refine extractWork.induct
    (motive_1 := fun doc pref acc => ∀ p t,
      (p, t) ∈ extractWork doc pref acc → (p, t) ∈ acc ∨ FieldOf pref doc p t)
    (motive_2 := fun value fieldPath => ∀ p t,
      (p, t) ∈ extractNested value fieldPath →
        (∃ fs, value = .vObj fs ∧ FieldOf fieldPath fs p t) ∨
        (∃ bs i, value = .vBinary bs ∧ i < bs.length ∧
          p = fieldPath ++ "." ++ decStr i ∧ t = "Int"))
    ?_ ?_ ?_ ?_ ?_
  · -- extractNested on a plain object
    intro fs fieldPath ih p t h
    rw [extractNested] at h
    exact Or.inl ⟨fs, rfl, ((ih p t h).resolve_left (by simp))⟩
  · -- extractNested on a typed array
    intro bs fieldPath p t h
    rw [extractNested] at h
    obtain ⟨j, hj, hp, ht⟩ := binFields_mem fieldPath bs 0 p t h
    exact Or.inr ⟨bs, j, rfl, hj, by simpa using hp, ht⟩
  · -- extractNested on every other value: no nested fields
    intro v fieldPath hnotObj hnotBin p t h
    cases v <;> first
      | (exfalso; exact hnotObj _ rfl)
      | (exfalso; exact hnotBin _ rfl)
      | simp [extractNested] at h
  · -- entry loop, end
    intro pref acc p t h
    exact Or.inl h
  · -- entry loop, step
    intro key value rest pref acc fieldPath acc1 acc2 ihnested ihrest p t h
    rw [extractWork] at h
    rcases ihrest p t h with hacc2 | hfield
    · rcases mem_foldl_mapSet _ _ _ _ hacc2 with hacc1 | hnested
      · rcases mem_mapSet _ _ _ _ _ hacc1 with hacc | ⟨rfl, rfl⟩
        · exact Or.inl hacc
        · exact Or.inr (FieldOf.here pref _ key value (List.mem_cons_self _ _))
      · rcases ihnested p t hnested with ⟨fs, hv, hsub⟩ | ⟨bs, i, hv, hi, hp, ht⟩
        · subst hv
          exact Or.inr (FieldOf.nested pref _ key fs p t
            (List.mem_cons_self _ _) hsub)
        · subst hv; subst hp; subst ht
          exact Or.inr (FieldOf.binary pref _ key bs i
            (List.mem_cons_self _ _) hi)
    · exact Or.inr (FieldOf_cons pref _ rest p t hfield)

/-- C8 amended: every field path produced by extraction arises from the
walk descending only through plain nested mappings or through binary
(typed-array) values — never through sequence elements, extended
identifiers, temporal values, or patterns.  (The original claim also
excluded binary payloads; the counterexample shows the code does descend
into those.) -/
theorem extractFields_paths_sound (doc : List (String × JSValue))
    (pref p t : String) (h : (p, t) ∈ extractFields doc pref) :
    FieldOf pref doc p t :=
  (extractWork_fieldOf doc pref [] p t h).resolve_left (by simp)

theorem extractFields_paths_sound_witness :
    ("a.b", "String") ∈
      extractFields [("a", JSValue.vObj [("b", JSValue.vStr "x")])] "" ∧
    FieldOf "" [("a", JSValue.vObj [("b", JSValue.vStr "x")])] "a.b" "String" :=
  ⟨by decide,
   extractFields_paths_sound [("a", JSValue.vObj [("b", JSValue.vStr "x")])]
     "" "a.b" "String" (by decide)⟩

/-! ## Map lemmas for schema inference -/

theorem mapSet_keys {α : Type} (m : List (String × α)) (k : String) (v : α) :
    (mapSet m k v).map Prod.fst =
      if k ∈ m.map Prod.fst then m.map Prod.fst
      else m.map Prod.fst ++ [k] := by
  induction m with
  | nil => simp [mapSet]
  | cons kv rest ih =>
    obtain ⟨k', v'⟩ := kv
    rw [mapSet]
    by_cases hk : k' = k
    · subst hk
      simp
    · rw [if_neg hk]
      simp only [List.map_cons, List.mem_cons]
      rw [ih]
      by_cases hmem : k ∈ rest.map Prod.fst
      · rw [if_pos hmem, if_pos (Or.inr hmem)]
      · rw [if_neg hmem, if_neg (by
          rintro (h | h)
          · exact hk h.symm
          · exact hmem h)]
        simp

theorem mapSet_keys_nodup {α : Type} (m : List (String × α)) (k : String)
    (v : α) (h : (m.map Prod.fst).Nodup) :
    ((mapSet m k v).map Prod.fst).Nodup := by
  rw [mapSet_keys]
  by_cases hmem : k ∈ m.map Prod.fst
  · rwa [if_pos hmem]
  · rw [if_neg hmem]
    simp [List.nodup_append, h, hmem]

theorem foldl_mapSet_nodup {α : Type} (l : List (String × α))
    (acc : List (String × α)) (h : (acc.map Prod.fst).Nodup) :
    ((l.foldl (fun a nt => mapSet a nt.1 nt.2) acc).map Prod.fst).Nodup := by
  induction l generalizing acc with
  | nil => exact h
  | cons nt rest ih =>
    rw [List.foldl_cons]
    exact ih _ (mapSet_keys_nodup _ _ _ h)

theorem extractWork_nodup :
    ∀ (doc : List (String × JSValue)) (pref : String)
      (acc : List (String × String)), (acc.map Prod.fst).Nodup →
      ((extractWork doc pref acc).map Prod.fst).Nodup := by
  refine extractWork.induct
    (motive_1 := fun doc pref acc => (acc.map Prod.fst).Nodup →
      ((extractWork doc pref acc).map Prod.fst).Nodup)
    (motive_2 := fun _ _ => True)
    ?_ ?_ ?_ ?_ ?_
  · intro _ _ _; trivial
  · intro _ _; trivial
  · intro _ _ _ _; trivial
  · intro pref acc h
    exact h
  · intro key value rest pref acc fieldPath acc1 acc2 _ihnested ihrest hacc
    rw [extractWork]
    exact ihrest (foldl_mapSet_nodup _ _ (mapSet_keys_nodup _ _ _ hacc))

theorem extractFields_nodup (doc : List (String × JSValue)) (pref : String) :
    ((extractFields doc pref).map Prod.fst).Nodup :=
  extractWork_nodup doc pref [] (by simp)

theorem mapGet_none_iff {α : Type} (l : List (String × α)) (k : String) :
    mapGet l k = none ↔ k ∉ l.map Prod.fst := by
  induction l with
  | nil => simp [mapGet]
  | cons kv rest ih =>
    obtain ⟨k', v'⟩ := kv
    rw [mapGet]
    by_cases hk : k' = k
    · subst hk
      simp
    · rw [if_neg hk]
      simp only [List.map_cons, List.mem_cons]
      rw [ih]
      constructor
      · rintro h (h' | h')
        · exact hk h'.symm
        · exact h h'
      · intro h h'
        exact h (Or.inr h')

theorem mapGet_eq_some_mem {α : Type} (l : List (String × α)) (k : String)
    (v : α) (h : mapGet l k = some v) : (k, v) ∈ l := by
  induction l with
  | nil => cases h
  | cons kv rest ih =>
    obtain ⟨k', v'⟩ := kv
    rw [mapGet] at h
    by_cases hk : k' = k
    · rw [if_pos hk] at h
      cases h
      exact hk ▸ List.mem_cons_self _ _
    · rw [if_neg hk] at h
      exact List.mem_cons_of_mem _ (ih h)

theorem mem_mapGet_of_nodup {α : Type} (l : List (String × α))
    (hnd : (l.map Prod.fst).Nodup) (k : String) (v : α) :
    (k, v) ∈ l ↔ mapGet l k = some v := by
  constructor
  · intro hmem
    induction l with
    | nil => cases hmem
    | cons kv rest ih =>
      obtain ⟨k', v'⟩ := kv
      rw [List.map_cons, List.nodup_cons] at hnd
      rcases List.mem_cons.mp hmem with h | h
      · cases h
        rw [mapGet, if_pos rfl]
      · rw [mapGet]
        by_cases hk : k' = k
        · subst hk
          exact absurd (List.mem_map_of_mem Prod.fst h) hnd.1
        · rw [if_neg hk]
          exact ih hnd.2 h
  · exact mapGet_eq_some_mem l k v

theorem mapGet_eq_some_key_mem {α : Type} (l : List (String × α)) (k : String)
    (v : α) (h : mapGet l k = some v) : k ∈ l.map Prod.fst :=
  List.mem_map_of_mem Prod.fst (mapGet_eq_some_mem l k v h)

theorem countP_keys_of_nodup {α : Type} (l : List (String × α))
    (hnd : (l.map Prod.fst).Nodup) (q : String) :
    l.countP (fun pt => decide (pt.1 = q)) =
      if q ∈ l.map Prod.fst then 1 else 0 := by
  induction l with
  | nil => simp
  | cons kv rest ih =>
    obtain ⟨k', v'⟩ := kv
    rw [List.map_cons, List.nodup_cons] at hnd
    rw [List.countP_cons, ih hnd.2]
    simp only [List.map_cons, List.mem_cons]
    by_cases hk : k' = q
    · subst hk
      simp [hnd.1]
    · have hqk : ¬ q = k' := fun h => hk h.symm
      have hor : (q = k' ∨ q ∈ List.map Prod.fst rest) ↔
          q ∈ List.map Prod.fst rest := by tauto
      rw [if_neg (show ¬ (decide ((k', v').1 = q) = true) by simp [hk]),
        if_congr hor rfl rfl]
      simp

theorem mapGet_map_snd {α β : Type} (l : List (String × α)) (g : α → β)
    (q : String) :
    mapGet (l.map (fun ab => (ab.1, g ab.2))) q = (mapGet l q).map g := by
  induction l with
  | nil => rfl
  | cons kv rest ih =>
    obtain ⟨k', v'⟩ := kv
    simp only [List.map_cons, mapGet]
    by_cases hk : k' = q
    · rw [if_pos hk, if_pos hk]
      rfl
    · rw [if_neg hk, if_neg hk]
      exact ih

theorem mem_insertSorted (s t : String) (l : List String) :
    t ∈ insertSorted s l ↔ t = s ∨ t ∈ l := by
  induction l with
  | nil => simp [insertSorted]
  | cons u rest ih =>
    rw [insertSorted]
    by_cases hc : charListLt u.data s.data
    · rw [if_pos hc, List.mem_cons, ih, List.mem_cons]
      tauto
    · rw [if_neg hc]
      exact List.mem_cons


theorem mem_jsSortStrings (t : String) (l : List String) :
    t ∈ jsSortStrings l ↔ t ∈ l := by
  induction l with
  | nil => simp [jsSortStrings]
  | cons u rest ih =>
    rw [jsSortStrings, List.foldr_cons]
    rw [show List.foldr insertSorted [] rest = jsSortStrings rest from rfl]
    rw [mem_insertSorted, ih]
    simp

/-! ## Occurrence counting and kind sets in `inferSchema` -/

/-- Total occurrence count recorded for one field path. -/
def statsOcc (stats : List (String × List (String × Nat))) (q : String) : Nat :=
  tcSum ((mapGet stats q).getD [])

/-- A kind label recorded for one field path. -/
def kindSeen (stats : List (String × List (String × Nat))) (q t : String) :
    Prop :=
  ∃ tc, mapGet stats q = some tc ∧ t ∈ tc.map Prod.fst

theorem bumpType_sum (tc : List (String × Nat)) (ty : String) :
    tcSum (bumpType tc ty) = tcSum tc + 1 := by
  induction tc with
  | nil => rfl
  | cons tv rest ih =>
    obtain ⟨t, c⟩ := tv
    rw [bumpType]
    by_cases ht : t = ty
    · rw [if_pos ht]
      simp [tcSum]
      omega
    · rw [if_neg ht]
      simp only [tcSum, List.map_cons, List.sum_cons] at ih ⊢
      omega

theorem bumpType_keys (tc : List (String × Nat)) (ty t : String) :
    t ∈ (bumpType tc ty).map Prod.fst ↔ t ∈ tc.map Prod.fst ∨ t = ty := by
  induction tc with
  | nil => simp [bumpType]
  | cons tv rest ih =>
    obtain ⟨t', c⟩ := tv
    rw [bumpType]
    by_cases ht : t' = ty
    · subst ht
      rw [if_pos rfl]
      simp only [List.map_cons, List.mem_cons]
      tauto
    · rw [if_neg ht]
      simp only [List.map_cons, List.mem_cons, ih]
      tauto

theorem addField_get_self (stats : List (String × List (String × Nat)))
    (path ty : String) :
    mapGet (addField stats path ty) path =
      some (bumpType ((mapGet stats path).getD []) ty) := by
  induction stats with
  | nil =>
    rw [addField]
    simp [mapGet, bumpType]
  | cons ptc rest ih =>
    obtain ⟨p, tc⟩ := ptc
    rw [addField]
    by_cases hp : p = path
    · subst hp
      simp [mapGet]
    · rw [if_neg hp]
      simp only [mapGet]
      rw [if_neg hp, if_neg hp]
      exact ih

theorem addField_get_other (stats : List (String × List (String × Nat)))
    (path ty q : String) (hq : q ≠ path) :
    mapGet (addField stats path ty) q = mapGet stats q := by
  induction stats with
  | nil =>
    rw [addField]
    simp only [mapGet]
    rw [if_neg (fun h : path = q => hq h.symm)]
  | cons ptc rest ih =>
    obtain ⟨p, tc⟩ := ptc
    rw [addField]
    by_cases hp : p = path
    · subst hp
      simp only [mapGet]
      rw [if_neg (fun h : p = q => hq h.symm),
        if_neg (fun h : p = q => hq h.symm)]
    · rw [if_neg hp]
      simp only [mapGet]
      by_cases hpq : p = q
      · rw [if_pos hpq, if_pos hpq]
      · rw [if_neg hpq, if_neg hpq]
        exact ih

theorem statsOcc_addField (stats : List (String × List (String × Nat)))
    (path ty q : String) :
    statsOcc (addField stats path ty) q =
      statsOcc stats q + if q = path then 1 else 0 := by
  by_cases hq : q = path
  · subst hq
    rw [statsOcc, statsOcc, addField_get_self, if_pos rfl]
    simp [bumpType_sum]
  · rw [statsOcc, statsOcc, addField_get_other _ _ _ _ hq, if_neg hq]
    simp

theorem kindSeen_addField (stats : List (String × List (String × Nat)))
    (path ty q t : String) :
    kindSeen (addField stats path ty) q t ↔
      kindSeen stats q t ∨ (q = path ∧ t = ty) := by
  by_cases hq : q = path
  · subst hq
    rw [kindSeen, kindSeen]
    constructor
    · rintro ⟨tc, hget, hmem⟩
      rw [addField_get_self] at hget
      cases hget
      rw [bumpType_keys] at hmem
      rcases hmem with hmem | rfl
      · rcases hgs : mapGet stats q with _ | tc0
        · rw [hgs] at hmem
          simp at hmem
        · rw [hgs] at hmem
          exact Or.inl ⟨tc0, rfl, by simpa using hmem⟩
      · exact Or.inr ⟨rfl, rfl⟩
    · intro h
      refine ⟨bumpType ((mapGet stats q).getD []) ty, addField_get_self _ _ _, ?_⟩
      rw [bumpType_keys]
      rcases h with ⟨tc, hget, hmem⟩ | ⟨-, rfl⟩
      · rw [hget]
        exact Or.inl (by simpa using hmem)
      · exact Or.inr rfl
  · rw [kindSeen, kindSeen, addField_get_other _ _ _ _ hq]
    constructor
    · rintro ⟨tc, hget, hmem⟩
      exact Or.inl ⟨tc, hget, hmem⟩
    · rintro (⟨tc, hget, hmem⟩ | ⟨hqp, -⟩)
      · exact ⟨tc, hget, hmem⟩
      · exact absurd hqp hq

theorem statsOcc_foldl_addField (l : List (String × String))
    (stats : List (String × List (String × Nat))) (q : String) :
    statsOcc (l.foldl (fun a pt => addField a pt.1 pt.2) stats) q =
      statsOcc stats q + l.countP (fun pt => decide (pt.1 = q)) := by
  induction l generalizing stats with
  | nil => simp
  | cons pt rest ih =>
    rw [List.foldl_cons, ih, statsOcc_addField, List.countP_cons]
    by_cases hq : q = pt.1
    · rw [if_pos hq, if_pos (by simp only [decide_eq_true_eq]; exact hq.symm)]
      omega
    · rw [if_neg hq, if_neg (by
        simp only [decide_eq_true_eq]
        exact fun h => hq h.symm)]
      omega

theorem kindSeen_foldl_addField (l : List (String × String))
    (stats : List (String × List (String × Nat))) (q t : String) :
    kindSeen (l.foldl (fun a pt => addField a pt.1 pt.2) stats) q t ↔
      kindSeen stats q t ∨ (q, t) ∈ l := by
  induction l generalizing stats with
  | nil => simp
  | cons pt rest ih =>
    rw [List.foldl_cons, ih, kindSeen_addField]
    obtain ⟨p1, t1⟩ := pt
    simp only [List.mem_cons, Prod.mk.injEq]
    tauto

theorem statsOcc_collectDoc (stats : List (String × List (String × Nat)))
    (doc : List (String × JSValue)) (q : String) :
    statsOcc (collectDoc stats doc) q =
      statsOcc stats q +
        if q ∈ (extractFields doc "").map Prod.fst then 1 else 0 := by
  rw [collectDoc, statsOcc_foldl_addField,
    countP_keys_of_nodup _ (extractFields_nodup doc "")]

theorem kindSeen_collectDoc (stats : List (String × List (String × Nat)))
    (doc : List (String × JSValue)) (q t : String) :
    kindSeen (collectDoc stats doc) q t ↔
      kindSeen stats q t ∨ (q, t) ∈ extractFields doc "" := by
  rw [collectDoc, kindSeen_foldl_addField]

theorem statsOcc_foldl_docs (docs : List (List (String × JSValue)))
    (stats : List (String × List (String × Nat))) (q : String) :
    statsOcc (docs.foldl collectDoc stats) q =
      statsOcc stats q +
        docs.countP
          (fun d => decide (q ∈ (extractFields d "").map Prod.fst)) := by
  induction docs generalizing stats with
  | nil => simp
  | cons d rest ih =>
    rw [List.foldl_cons, ih, statsOcc_collectDoc, List.countP_cons]
    by_cases hq : q ∈ (extractFields d "").map Prod.fst
    · rw [if_pos hq, if_pos (by simp [hq])]
      omega
    · rw [if_neg hq, if_neg (by simp [hq])]
      omega

theorem kindSeen_foldl_docs (docs : List (List (String × JSValue)))
    (stats : List (String × List (String × Nat))) (q t : String) :
    kindSeen (docs.foldl collectDoc stats) q t ↔
      kindSeen stats q t ∨ ∃ d ∈ docs, (q, t) ∈ extractFields d "" := by
  induction docs generalizing stats with
  | nil => simp
  | cons d rest ih =>
    rw [List.foldl_cons, ih, kindSeen_collectDoc]
    simp only [List.mem_cons]
    constructor
    · rintro ((h | h) | ⟨d', hd', h⟩)
      · exact Or.inl h
      · exact Or.inr ⟨d, Or.inl rfl, h⟩
      · exact Or.inr ⟨d', Or.inr hd', h⟩
    · rintro (h | ⟨d', (rfl | hd'), h⟩)
      · exact Or.inl (Or.inl h)
      · exact Or.inl (Or.inr h)
      · exact Or.inr ⟨d', hd', h⟩

theorem statsOcc_docsFieldStats (docs : List (List (String × JSValue)))
    (q : String) :
    statsOcc (docsFieldStats docs) q =
      docs.countP (fun d => decide (q ∈ (extractFields d "").map Prod.fst)) := by
  rw [docsFieldStats, statsOcc_foldl_docs]
  have h0 : statsOcc [] q = 0 := rfl
  omega

theorem kindSeen_docsFieldStats (docs : List (List (String × JSValue)))
    (q t : String) :
    kindSeen (docsFieldStats docs) q t ↔
      ∃ d ∈ docs, (q, t) ∈ extractFields d "" := by
  rw [docsFieldStats, kindSeen_foldl_docs]
  simp [kindSeen, mapGet]

theorem jsRoundPct_le_100 (occ n : Nat) (h1 : 1 ≤ n) (h2 : occ ≤ n) :
    jsRoundPct occ n ≤ 100 := by
  rw [jsRoundPct]
  have hlt : (200 * occ + n) / (2 * n) < 101 := by
    rw [Nat.div_lt_iff_lt_mul (by omega : 0 < 2 * n)]
    omega
  omega

theorem jsRoundPct_pos (occ n : Nat) (h1 : 1 ≤ occ) (h2 : n ≤ 200)
    (h3 : 1 ≤ n) : 0 < jsRoundPct occ n := by
  rw [jsRoundPct]
  have hle : 1 ≤ (200 * occ + n) / (2 * n) := by
    rw [Nat.le_div_iff_mul_le (by omega : 0 < 2 * n)]
    omega
  omega

theorem addField_sum_pos (s : List (String × List (String × Nat)))
    (p ty q : String)
    (hinv : ∀ tc, mapGet s q = some tc → 1 ≤ tcSum tc) :
    ∀ tc, mapGet (addField s p ty) q = some tc → 1 ≤ tcSum tc := by
  intro tc h
  by_cases hq : q = p
  · subst hq
    rw [addField_get_self] at h
    cases h
    rw [bumpType_sum]
    omega
  · rw [addField_get_other _ _ _ _ hq] at h
    exact hinv _ h

theorem foldl_addField_sum_pos (l : List (String × String))
    (s : List (String × List (String × Nat))) (q : String)
    (hinv : ∀ tc, mapGet s q = some tc → 1 ≤ tcSum tc) :
    ∀ tc, mapGet (l.foldl (fun a pt => addField a pt.1 pt.2) s) q = some tc →
      1 ≤ tcSum tc := by
  induction l generalizing s with
  | nil => exact hinv
  | cons pt rest ih =>
    rw [List.foldl_cons]
    exact ih _ (addField_sum_pos _ _ _ _ hinv)

theorem docsFieldStats_sum_pos (docs : List (List (String × JSValue)))
    (q : String) :
    ∀ tc, mapGet (docsFieldStats docs) q = some tc → 1 ≤ tcSum tc := by
  rw [docsFieldStats]
  have : ∀ (s : List (String × List (String × Nat))),
      (∀ tc, mapGet s q = some tc → 1 ≤ tcSum tc) →
      ∀ tc, mapGet (docs.foldl collectDoc s) q = some tc → 1 ≤ tcSum tc := by
    induction docs with
    | nil => exact fun s hs => hs
    | cons d rest ih =>
      intro s hs
      rw [List.foldl_cons]
      exact ih _ (foldl_addField_sum_pos _ _ _ hs)
  exact this [] (by intro tc h; cases h)

/-- The field-schema entry built from one field's type counts. -/
def mkFieldSchema (total : Nat) (tc : List (String × Nat)) : FieldSchema :=
  { types := jsSortStrings (tc.map Prod.fst)
    percentage := jsRoundPct (tcSum tc) total }

theorem inferSchema_eq (docs : List (List (String × JSValue)))
    (hne : docs ≠ []) :
    inferSchema docs = (docsFieldStats docs).map fun ptc =>
      (ptc.1, mkFieldSchema docs.length ptc.2) := by
  cases docs with
  | nil => exact absurd rfl hne
  | cons d rest => rfl

/-- C7 counterexample: on a 201-document sample in which field `b` occurs
in exactly one document, inference reports presence percentage `0` for
`b` — not a value in `(0, 100]`. -/
theorem inferSchema_percentage_zero :
    (List.replicate 200 [("a", JSValue.vNumInt 1)] ++
        [[("b", JSValue.vNumInt 2)]]) ≠ [] ∧
    mapGet
      (inferSchema
        (List.replicate 200 [("a", JSValue.vNumInt 1)] ++
          [[("b", JSValue.vNumInt 2)]])) "b" =
      some { types := ["Int"], percentage := 0 } ∧
    ¬ (0 : Nat) < 0 := by
  refine ⟨fun h => ?_, ?_, by omega⟩
  · have h2 := congrArg List.length h
    rw [List.length_append, List.length_replicate] at h2
    simp at h2
  · set_option maxRecDepth 100000 in rfl

/-- C7 amended: every field-schema entry of a non-empty sample has a
presence percentage that is at most `100` — and strictly positive whenever
the sample has at most 200 documents, though it can round down to `0` for
rare paths in larger samples — and a kind set that is the union of the
kinds observed for that path across the whole sample. -/
theorem inferSchema_entry_invariants (docs : List (List (String × JSValue)))
    (hne : docs ≠ []) (path : String) (entry : FieldSchema)
    (hget : mapGet (inferSchema docs) path = some entry) :
    entry.percentage ≤ 100 ∧
    (docs.length ≤ 200 → 0 < entry.percentage) ∧
    (∀ t, t ∈ entry.types ↔
      ∃ d ∈ docs, mapGet (extractFields d "") path = some t) := by
  rw [inferSchema_eq docs hne, mapGet_map_snd, Option.map_eq_some'] at hget
  obtain ⟨tc, hstats, hentry⟩ := hget
  have hlen : 1 ≤ docs.length := by
    cases docs with
    | nil => exact absurd rfl hne
    | cons d rest => simp
  have hocc : tcSum tc = statsOcc (docsFieldStats docs) path := by
    rw [statsOcc, hstats]
    rfl
  have hocc_le : tcSum tc ≤ docs.length := by
    rw [hocc, statsOcc_docsFieldStats]
    exact List.countP_le_length _
  have hocc_pos : 1 ≤ tcSum tc := docsFieldStats_sum_pos docs path tc hstats
  subst hentry
  refine ⟨?_, ?_, ?_⟩
  · exact jsRoundPct_le_100 _ _ hlen hocc_le
  · intro h200
    exact jsRoundPct_pos _ _ hocc_pos h200 hlen
  · intro t
    have h1 : t ∈ jsSortStrings (tc.map Prod.fst) ↔ t ∈ tc.map Prod.fst :=
      mem_jsSortStrings t _
    have h2 : t ∈ tc.map Prod.fst ↔ kindSeen (docsFieldStats docs) path t := by
      rw [kindSeen]
      constructor
      · intro hmem
        exact ⟨tc, hstats, hmem⟩
      · rintro ⟨tc', hstats', hmem⟩
        rw [hstats] at hstats'
        cases hstats'
        exact hmem
    show t ∈ jsSortStrings (tc.map Prod.fst) ↔ _
    rw [h1, h2, kindSeen_docsFieldStats]
    refine exists_congr fun d => and_congr_right fun _hd => ?_
    exact mem_mapGet_of_nodup _ (extractFields_nodup d "") path t

theorem inferSchema_entry_invariants_witness :
    ([[("a", JSValue.vNumInt 1)]] : List (List (String × JSValue))) ≠ [] ∧
    mapGet (inferSchema [[("a", JSValue.vNumInt 1)]]) "a" =
      some { types := ["Int"], percentage := 100 } ∧
    ({ types := ["Int"], percentage := 100 } : FieldSchema).percentage ≤ 100 ∧
    (([[("a", JSValue.vNumInt 1)]] : List (List (String × JSValue))).length ≤
        200 →
      0 < ({ types := ["Int"], percentage := 100 } : FieldSchema).percentage) ∧
    (∀ t, t ∈ ({ types := ["Int"], percentage := 100 } : FieldSchema).types ↔
      ∃ d ∈ [[("a", JSValue.vNumInt 1)]],
        mapGet (extractFields d "") "a" = some t) := by
  refine ⟨by simp, by decide, ?_⟩
  have h := inferSchema_entry_invariants [[("a", JSValue.vNumInt 1)]]
    (by simp) "a" { types := ["Int"], percentage := 100 } (by decide)
  exact h

/-- C6: on the four-document sample where `a` is a whole number three
times and a string once, inference reports kinds `{Int, String}` and
presence `100` for `a`; and in general the occurrence count recorded for a
path equals the number of sampled documents whose extracted field map
contains that path — one increment per document, never more. -/
theorem inferSchema_union_and_presence :
    mapGet
      (inferSchema
        [[("a", JSValue.vNumInt 1)], [("a", JSValue.vNumInt 2)],
         [("a", JSValue.vNumInt 3)], [("a", JSValue.vStr "x")]]) "a" =
      some { types := ["Int", "String"], percentage := 100 } ∧
    ∀ (docs : List (List (String × JSValue))) (path : String),
      statsOcc (docsFieldStats docs) path =
        (docs.filter
          (fun d => decide (path ∈ (extractFields d "").map Prod.fst))).length := by
  constructor
  · decide
  · intro docs path
    rw [statsOcc_docsFieldStats, List.countP_eq_length_filter]
